import Mathlib

/-!
# go-globalmaptiles: the TMS Global Mercator pyramid

A shallow embedding of `globalmaptiles.go` and proofs of its specification.

Modelling conventions
* Go `int` values are integers (`ℤ`).
* Go `float64` values are exact numbers: the operations `+ - * /`, `math.Ceil` and
  the comparisons are those of a linear ordered field `K` with a floor function
  (`ℚ` for evaluation, `ℝ` for the projector built by `NewGlobalMercator`, whose
  constants involve `math.Pi`).
* Two effects of `float64` that change an integer or a sign are part of the model:
  `math.Pow(2, float64(zoom)) - 1`, which `GoogleTile` and `QuadTree` convert to `int`,
  is rounded to 53 significant bits (`round64`), and `math.Pow(2, float64(zoom))` is
  `+Inf` from `zoom = 1024`, so that `Resolution` is `0` there.
* Outside the model: the last-bit rounding of the other `float64` operations, NaN,
  the wrap-around of `int` arithmetic, the rounding of `float64(n)` for an integer
  above `2^53`, and `int(x)` for `|x| ≥ 2^63`, which Go leaves to the implementation.
* `math.Log`, `math.Tan`, `math.Exp`, `math.Atan`, `math.Pi` are the real functions
  `Real.log`, `Real.tan`, `Real.exp`, `Real.arctan` and the real number `Real.pi`.
* `log.Panicf` is the result `none`.
-/

namespace globalmaptiles

/-- The struct `GlobalMercator`; `K` is the type standing for `float64`. -/
structure GlobalMercator (K : Type) where
  tileSize : ℤ
  initialResolution : K
  originShift : K

/-- The conversion `int(x)` of a `float64` to `int`: truncation toward zero. -/
def truncToInt {K : Type} [LinearOrderedField K] [FloorRing K] (x : K) : ℤ :=
  if 0 ≤ x then ⌊x⌋ else ⌈x⌉

/-- Rounding to the nearest integer, a tie going to the even neighbour. -/
def roundEven {K : Type} [LinearOrderedField K] [FloorRing K] (q : K) : ℤ :=
  if q - (⌊q⌋ : K) < 1 / 2 then ⌊q⌋
  else if 1 / 2 < q - (⌊q⌋ : K) then ⌊q⌋ + 1
  else if ⌊q⌋ % 2 = 0 then ⌊q⌋ else ⌊q⌋ + 1

/-- The `float64` nearest to the exact value `x`: 53 significant bits, ties to even.
With `e = Int.log 2 |x|`, so that `2^e ≤ |x| < 2^(e+1)`, the spacing of the `float64`
values around `x` is `2^(e-52)`. Overflow and subnormal values are not represented. -/
def round64 {K : Type} [LinearOrderedField K] [FloorRing K] (x : K) : K :=
  if x = 0 then 0
  else (roundEven (x / (2 : K) ^ (Int.log 2 |x| - 52)) : K) * (2 : K) ^ (Int.log 2 |x| - 52)

/-- The constructor `NewGlobalMercator(tileSize)`. -/
noncomputable def NewGlobalMercator (tileSize : ℤ) : GlobalMercator ℝ :=
  { tileSize := tileSize
    initialResolution := 2 * Real.pi * 6378137 / (tileSize : ℝ)
    originShift := 2 * Real.pi * 6378137 / 2 }

namespace GlobalMercator

/-- The method `LatLonToMeters(lat, lon)`, returning `(mx, my)`. -/
noncomputable def LatLonToMeters (m : GlobalMercator ℝ) (lat lon : ℝ) : ℝ × ℝ :=
  let mx := lon * m.originShift / 180
  let my := Real.log (Real.tan ((90 + lat) * Real.pi / 360)) / (Real.pi / 180)
  let my := my * m.originShift / 180
  (mx, my)

/-- The method `MetersToLatLon(mx, my)`, returning `(lat, lon)`. -/
noncomputable def MetersToLatLon (m : GlobalMercator ℝ) (mx my : ℝ) : ℝ × ℝ :=
  let lon := (mx / m.originShift) * 180
  let lat := (my / m.originShift) * 180
  let lat := 180 / Real.pi * (2 * Real.arctan (Real.exp (lat * Real.pi / 180)) - Real.pi / 2)
  (lat, lon)

variable {K : Type} [LinearOrderedField K] [FloorRing K]

/-- The method `TileSize()`. -/
def TileSize (m : GlobalMercator K) : ℤ :=
  m.tileSize

/-- The method `Resolution(zoom)`: `initialResolution / math.Pow(2, float64(zoom))`.
From `zoom = 1024` the power is `+Inf` and the quotient of a finite value by it is `0`. -/
def Resolution (m : GlobalMercator K) (zoom : ℤ) : K :=
  if 1024 ≤ zoom then 0 else m.initialResolution / (2 : K) ^ zoom

/-- The method `PixelsToMeters(px, py, zoom)`, returning `(mx, my)`. -/
def PixelsToMeters (m : GlobalMercator K) (px py : K) (zoom : ℤ) : K × K :=
  let res := m.Resolution zoom
  let mx := px * res - m.originShift
  let my := py * res - m.originShift
  (mx, my)

/-- The method `MetersToPixels(mx, my, zoom)`, returning `(px, py)`. -/
def MetersToPixels (m : GlobalMercator K) (mx my : K) (zoom : ℤ) : K × K :=
  let res := m.Resolution zoom
  let px := (mx + m.originShift) / res
  let py := (my + m.originShift) / res
  (px, py)

/-- The method `PixelsToTile(px, py)`, returning `(tx, ty)`. -/
def PixelsToTile (m : GlobalMercator K) (px py : K) : ℤ × ℤ :=
  let tx := truncToInt (((⌈px / (m.tileSize : K)⌉ : ℤ) : K) - 1)
  let ty := truncToInt (((⌈py / (m.tileSize : K)⌉ : ℤ) : K) - 1)
  (tx, ty)

/-- The method `MetersToTile(mx, my, zoom)`, returning `(tx, ty)`. -/
def MetersToTile (m : GlobalMercator K) (mx my : K) (zoom : ℤ) : ℤ × ℤ :=
  let p := m.MetersToPixels mx my zoom
  m.PixelsToTile p.1 p.2

/-- The method `TileToPixels(tx, ty)`, returning `(px, py)`. -/
def TileToPixels (m : GlobalMercator K) (tx ty : ℤ) : K × K :=
  (((tx * m.tileSize : ℤ) : K), ((ty * m.tileSize : ℤ) : K))

/-- The method `TileBounds(tx, ty, zoom)`, returning `(minx, miny, maxx, maxy)`. -/
def TileBounds (m : GlobalMercator K) (tx ty zoom : ℤ) : K × K × K × K :=
  let lo := m.PixelsToMeters ((tx * m.tileSize : ℤ) : K) ((ty * m.tileSize : ℤ) : K) zoom
  let hi := m.PixelsToMeters (((tx + 1) * m.tileSize : ℤ) : K) (((ty + 1) * m.tileSize : ℤ) : K) zoom
  (lo.1, lo.2, hi.1, hi.2)

/-- The loop of `ZoomForPixelSize`: `n` iterations remain and the loop variable is `i`;
falling out of the loop is the panic, `none`. -/
def zoomLoop (m : GlobalMercator K) (pixelSize : K) : ℕ → ℤ → Option ℤ
  | 0, _ => none
  | n + 1, i =>
    if pixelSize > m.Resolution i then
      if i ≠ 0 then some (i - 1) else some 0
    else zoomLoop m pixelSize n (i + 1)

/-- The method `ZoomForPixelSize(pixelSize)`: the loop runs for `i = 0, ..., 29`. -/
def ZoomForPixelSize (m : GlobalMercator K) (pixelSize : K) : Option ℤ :=
  zoomLoop m pixelSize 30 0

/-- The method `GoogleTile(tx, ty, zoom)`, returning `(gtx, gty)`. The `float64`
difference `math.Pow(2, float64(zoom)) - 1` is rounded before `int` truncates it. -/
def GoogleTile (_m : GlobalMercator K) (tx ty zoom : ℤ) : ℤ × ℤ :=
  (tx, truncToInt (round64 ((2 : K) ^ zoom - 1)) - ty)

/-- The body of the loop of `QuadTree` at loop variable `i > 0`: the value of `digit`
when it is appended. -/
def quadDigit (tx ty : ℤ) (i : ℕ) : ℤ :=
  let digit : ℤ := 0
  let mask : ℤ := (1 : ℤ) <<< (((i - 1 : ℕ) : ℤ))
  let digit := if Int.land tx mask ≠ 0 then digit + 1 else digit
  let digit := if Int.land ty mask ≠ 0 then digit + 2 else digit
  digit

/-- The loop `for i := zoom; i > 0; i--` of `QuadTree`, from loop variable `i` and the
key built so far; `strconv.Itoa` is `toString`. -/
def quadLoop (tx ty : ℤ) : ℕ → String → String
  | 0, quadKey => quadKey
  | i + 1, quadKey => quadLoop tx ty i (quadKey ++ toString (quadDigit tx ty (i + 1)))

/-- The method `QuadTree(tx, ty, zoom)`; a loop starting at `zoom ≤ 0` does not run. The
row is flipped as in `GoogleTile`, with the rounded `float64` difference. -/
def QuadTree (_m : GlobalMercator K) (tx ty zoom : ℤ) : String :=
  let quadKey := ""
  let ty := truncToInt (round64 ((2 : K) ^ zoom - 1)) - ty
  quadLoop tx ty zoom.toNat quadKey

end GlobalMercator

/-- The binary digit of weight `2 ^ i` of an integer, as the specification writes
`bit(x, i)`. -/
def bit (x : ℤ) (i : ℕ) : ℤ :=
  x / 2 ^ i % 2

/-- A projector over `ℚ` for evaluating the methods that do not involve `math.Pi`. -/
def sampleMercator : GlobalMercator ℚ :=
  { tileSize := 256, initialResolution := 156543, originShift := 20037504 }

open GlobalMercator

variable {K : Type} [LinearOrderedField K] [FloorRing K]

/-! ## Rounding to `float64` -/

theorem roundEven_intCast (n : ℤ) : roundEven ((n : K)) = n := by
  unfold roundEven
  simp

/-- An integer of magnitude below `2^53` is a `float64`. -/
theorem round64_intCast (n : ℤ) (h : |n| < 2 ^ 53) : round64 ((n : K)) = (n : K) := by
  unfold round64
  by_cases h0 : (n : K) = 0
  · rw [if_pos h0, h0]
  · rw [if_neg h0]
    have hn0 : n ≠ 0 := by
      rintro rfl
      exact h0 (by simp)
    have hpos : (0 : K) < |(n : K)| := abs_pos.mpr h0
    have h1 : (1 : K) ≤ |(n : K)| := by
      have : (1 : ℤ) ≤ |n| := Int.one_le_abs hn0
      exact_mod_cast this
    have hlt : |(n : K)| < ((2 : ℕ) : K) ^ (53 : ℤ) := by
      have : ((|n| : ℤ) : K) < ((2 ^ 53 : ℤ) : K) := by exact_mod_cast h
      rw [Int.cast_abs] at this
      rw [zpow_ofNat]
      exact_mod_cast this
    have he1 : Int.log 2 |(n : K)| < 53 := (Int.lt_zpow_iff_log_lt (by norm_num) hpos).mp hlt
    have he0 : 0 ≤ Int.log 2 |(n : K)| := by
      apply (Int.zpow_le_iff_le_log (by norm_num) hpos).mp
      simpa using h1
    obtain ⟨k, hk⟩ : ∃ k : ℕ, Int.log 2 |(n : K)| - 52 = -(k : ℤ) :=
      ⟨(52 - Int.log 2 |(n : K)|).toNat, by omega⟩
    rw [hk, zpow_neg, zpow_natCast, div_inv_eq_mul]
    have hq : (n : K) * (2 : K) ^ k = (((n * 2 ^ k : ℤ)) : K) := by push_cast; ring
    rw [hq, roundEven_intCast]
    push_cast
    have h2 : (2 : K) ^ k ≠ 0 := pow_ne_zero _ (by norm_num)
    field_simp

/-- From 54 bits on, `2^z - 1` is not a `float64`: it rounds up to `2^z`. -/
theorem round64_two_pow_sub_one (z : ℕ) (hz : 54 ≤ z) :
    round64 ((2 : K) ^ ((z : ℕ) : ℤ) - 1) = (2 : K) ^ z := by
  obtain ⟨s, rfl⟩ : ∃ s : ℕ, z = s + 54 := ⟨z - 54, by omega⟩
  rw [zpow_natCast]
  have hbig : (2 : K) ≤ (2 : K) ^ (s + 54) := by
    calc (2 : K) = (2 : K) ^ 1 := by norm_num
      _ ≤ (2 : K) ^ (s + 54) := pow_le_pow_right₀ (by norm_num) (by omega)
  have hxpos : (0 : K) < (2 : K) ^ (s + 54) - 1 := by linarith
  have hx0 : (2 : K) ^ (s + 54) - 1 ≠ 0 := ne_of_gt hxpos
  have hlog : Int.log 2 |(2 : K) ^ (s + 54) - 1| = (s : ℤ) + 53 := by
    rw [abs_of_pos hxpos]
    have hlo : (s : ℤ) + 53 ≤ Int.log 2 ((2 : K) ^ (s + 54) - 1) := by
      apply (Int.zpow_le_iff_le_log (by norm_num) hxpos).mp
      have : (((2 : ℕ) : K)) ^ ((s : ℤ) + 53) = (2 : K) ^ (s + 53) := by
        rw [show (s : ℤ) + 53 = ((s + 53 : ℕ) : ℤ) by push_cast; ring, zpow_natCast]
        norm_num
      rw [this]
      have h2 : (2 : K) ^ (s + 54) = 2 * (2 : K) ^ (s + 53) := by ring
      have h3 : (1 : K) ≤ (2 : K) ^ (s + 53) := one_le_pow₀ (by norm_num)
      linarith
    have hhi : Int.log 2 ((2 : K) ^ (s + 54) - 1) < (s : ℤ) + 54 := by
      apply (Int.lt_zpow_iff_log_lt (by norm_num) hxpos).mp
      have : (((2 : ℕ) : K)) ^ ((s : ℤ) + 54) = (2 : K) ^ (s + 54) := by
        rw [show (s : ℤ) + 54 = ((s + 54 : ℕ) : ℤ) by push_cast; ring, zpow_natCast]
        norm_num
      rw [this]
      linarith
    omega
  unfold round64
  rw [if_neg hx0, hlog]
  have hexp : (s : ℤ) + 53 - 52 = ((s + 1 : ℕ) : ℤ) := by push_cast; ring
  rw [hexp, zpow_natCast]
  have hp : (0 : K) < (2 : K) ^ (s + 1) := by positivity
  have hp2 : (2 : K) ≤ (2 : K) ^ (s + 1) := by
    calc (2 : K) = (2 : K) ^ 1 := by norm_num
      _ ≤ (2 : K) ^ (s + 1) := pow_le_pow_right₀ (by norm_num) (by omega)
  have hq : ((2 : K) ^ (s + 54) - 1) / (2 : K) ^ (s + 1)
      = (((2 ^ 53 - 1 : ℤ)) : K) + (1 - 1 / (2 : K) ^ (s + 1)) := by
    have : (2 : K) ^ (s + 54) = (2 : K) ^ 53 * (2 : K) ^ (s + 1) := by ring
    rw [this]
    field_simp
    ring
  have hinv_pos : (0 : K) < 1 / (2 : K) ^ (s + 1) := by positivity
  have hinv_le : 1 / (2 : K) ^ (s + 1) ≤ 1 / 2 := by
    apply one_div_le_one_div_of_le (by norm_num) hp2
  have hfloor : ⌊((2 : K) ^ (s + 54) - 1) / (2 : K) ^ (s + 1)⌋ = 2 ^ 53 - 1 := by
    rw [hq, Int.floor_int_add]
    have : ⌊(1 : K) - 1 / (2 : K) ^ (s + 1)⌋ = 0 := by
      rw [Int.floor_eq_iff]
      constructor
      · push_cast; linarith
      · push_cast; linarith
    rw [this]
    ring
  have hround : roundEven (((2 : K) ^ (s + 54) - 1) / (2 : K) ^ (s + 1)) = 2 ^ 53 := by
    unfold roundEven
    rw [hfloor]
    have hfr : ((2 : K) ^ (s + 54) - 1) / (2 : K) ^ (s + 1) - (((2 ^ 53 - 1 : ℤ)) : K)
        = 1 - 1 / (2 : K) ^ (s + 1) := by
      rw [hq]; ring
    rw [hfr]
    have hnlt : ¬ (1 - 1 / (2 : K) ^ (s + 1) < 1 / 2) := by
      push_neg
      linarith
    rw [if_neg hnlt]
    split
    · norm_num
    · norm_num
  rw [hround]
  push_cast
  ring

/-! ## Basic facts about the constructor -/

theorem originShift_pos (tileSize : ℤ) : 0 < (NewGlobalMercator tileSize).originShift := by
  have := Real.pi_pos
  simp only [NewGlobalMercator]
  positivity

/-- The angle `(90 + lat)·π/360` lies strictly between `0` and `π/2` when `-90 < lat < 90`. -/
theorem halfAngle_mem (lat : ℝ) (h1 : -90 < lat) (h2 : lat < 90) :
    0 < (90 + lat) * Real.pi / 360 ∧ (90 + lat) * Real.pi / 360 < Real.pi / 2 := by
  have hpi := Real.pi_pos
  constructor
  · have : 0 < 90 + lat := by linarith
    positivity
  · have : (90 + lat) * Real.pi < 180 * Real.pi := by
      apply mul_lt_mul_of_pos_right _ hpi
      linarith
    linarith

/-- C1. Round trip latitude/longitude → meters → latitude/longitude: for the
projector of any tile size and every `lat` in `(-85, 85)`, `lon` in `(-180, 180)`,
`MetersToLatLon(LatLonToMeters(lat, lon)) = (lat, lon)` over exact real arithmetic. -/
theorem C1_latlon_roundtrip (tileSize : ℤ) (lat lon : ℝ)
    (hlat1 : -85 < lat) (hlat2 : lat < 85) (hlon1 : -180 < lon) (hlon2 : lon < 180) :
    (NewGlobalMercator tileSize).MetersToLatLon
        ((NewGlobalMercator tileSize).LatLonToMeters lat lon).1
        ((NewGlobalMercator tileSize).LatLonToMeters lat lon).2 = (lat, lon) := by
  have hpi := Real.pi_pos
  have hpi0 : Real.pi ≠ 0 := ne_of_gt hpi
  have hos := originShift_pos tileSize
  have hos0 : (NewGlobalMercator tileSize).originShift ≠ 0 := ne_of_gt hos
  obtain ⟨ha1, ha2⟩ := halfAngle_mem lat (by linarith) (by linarith)
  have htan : 0 < Real.tan ((90 + lat) * Real.pi / 360) := Real.tan_pos_of_pos_of_lt_pi_div_two ha1 ha2
  simp only [MetersToLatLon, LatLonToMeters]
  refine Prod.ext ?_ ?_
  · show 180 / Real.pi * (2 * Real.arctan (Real.exp
        (Real.log (Real.tan ((90 + lat) * Real.pi / 360)) / (Real.pi / 180)
          * (NewGlobalMercator tileSize).originShift / 180
          / (NewGlobalMercator tileSize).originShift * 180 * Real.pi / 180)) - Real.pi / 2) = lat
    have hexp : Real.log (Real.tan ((90 + lat) * Real.pi / 360)) / (Real.pi / 180)
          * (NewGlobalMercator tileSize).originShift / 180
          / (NewGlobalMercator tileSize).originShift * 180 * Real.pi / 180
        = Real.log (Real.tan ((90 + lat) * Real.pi / 360)) := by
      field_simp
      ring
    rw [hexp, Real.exp_log htan, Real.arctan_tan (by linarith) ha2]
    field_simp
    ring
  · show lon * (NewGlobalMercator tileSize).originShift / 180
        / (NewGlobalMercator tileSize).originShift * 180 = lon
    field_simp
    ring

/-- Witness for C1 at tile size 256, latitude 10, longitude 20. -/
theorem C1_latlon_roundtrip_witness :
    (NewGlobalMercator 256).MetersToLatLon
        ((NewGlobalMercator 256).LatLonToMeters 10 20).1
        ((NewGlobalMercator 256).LatLonToMeters 10 20).2 = (10, 20) :=
  C1_latlon_roundtrip 256 10 20 (by norm_num) (by norm_num) (by norm_num) (by norm_num)

/-! ## Pixels and meters -/

theorem initialResolution_pos (tileSize : ℤ) (h : 0 < tileSize) :
    0 < (NewGlobalMercator tileSize).initialResolution := by
  have hpi := Real.pi_pos
  have ht : (0 : ℝ) < (tileSize : ℝ) := by exact_mod_cast h
  simp only [NewGlobalMercator]
  positivity

/-- Below zoom 1024 the power of two is finite and `Resolution` is the quotient. -/
theorem Resolution_of_lt (m : GlobalMercator K) (zoom : ℤ) (hz : zoom < 1024) :
    m.Resolution zoom = m.initialResolution / (2 : K) ^ zoom := by
  unfold Resolution
  rw [if_neg (by omega)]

/-- From zoom 1024 the power of two is `+Inf` and `Resolution` is `0`. -/
theorem Resolution_of_ge (m : GlobalMercator K) (zoom : ℤ) (hz : 1024 ≤ zoom) :
    m.Resolution zoom = 0 := by
  unfold Resolution
  rw [if_pos hz]

theorem Resolution_pos (m : GlobalMercator K) (h : 0 < m.initialResolution) (zoom : ℤ)
    (hz : zoom < 1024) : 0 < m.Resolution zoom := by
  rw [Resolution_of_lt m zoom hz]
  have : (0 : K) < (2 : K) ^ zoom := zpow_pos (by norm_num) zoom
  positivity

/-- Meters → pixels → meters is the identity for a projector of nonzero resolution. -/
theorem pixels_meters_roundtrip (m : GlobalMercator K) (mx my : K) (zoom : ℤ)
    (hres : m.Resolution zoom ≠ 0) :
    m.PixelsToMeters (m.MetersToPixels mx my zoom).1 (m.MetersToPixels mx my zoom).2 zoom
      = (mx, my) := by
  simp only [PixelsToMeters, MetersToPixels]
  refine Prod.ext ?_ ?_
  · show (mx + m.originShift) / m.Resolution zoom * m.Resolution zoom - m.originShift = mx
    rw [div_mul_cancel₀ _ hres]
    ring
  · show (my + m.originShift) / m.Resolution zoom * m.Resolution zoom - m.originShift = my
    rw [div_mul_cancel₀ _ hres]
    ring

/-- C2. Round trip meters → pixels → meters: for every tile size `> 0`, every zoom in
`[0, 20]` and every point with `|mx|, |my| ≤ originShift`,
`PixelsToMeters(MetersToPixels(mx, my, zoom), zoom) = (mx, my)` over exact arithmetic. -/
theorem C2_meters_pixels_roundtrip (tileSize : ℤ) (htile : 0 < tileSize) (zoom : ℤ)
    (hz0 : 0 ≤ zoom) (hz20 : zoom ≤ 20) (mx my : ℝ)
    (hmx : |mx| ≤ (NewGlobalMercator tileSize).originShift)
    (hmy : |my| ≤ (NewGlobalMercator tileSize).originShift) :
    (NewGlobalMercator tileSize).PixelsToMeters
        ((NewGlobalMercator tileSize).MetersToPixels mx my zoom).1
        ((NewGlobalMercator tileSize).MetersToPixels mx my zoom).2 zoom = (mx, my) :=
  pixels_meters_roundtrip _ mx my zoom
    (ne_of_gt (Resolution_pos _ (initialResolution_pos tileSize htile) zoom (by omega)))

/-- Witness for C2 at tile size 256, zoom 3 and the point `(1000, -2000)`. -/
theorem C2_meters_pixels_roundtrip_witness :
    (NewGlobalMercator 256).PixelsToMeters
        ((NewGlobalMercator 256).MetersToPixels 1000 (-2000) 3).1
        ((NewGlobalMercator 256).MetersToPixels 1000 (-2000) 3).2 3 = (1000, -2000) := by
  have hpi := Real.pi_gt_three
  have hos : (2000 : ℝ) ≤ (NewGlobalMercator 256).originShift := by
    simp only [NewGlobalMercator]
    linarith
  refine C2_meters_pixels_roundtrip 256 (by norm_num) 3 (by norm_num) (by norm_num)
    1000 (-2000) ?_ ?_
  · rw [abs_of_nonneg (by norm_num)]
    linarith
  · rw [abs_neg, abs_of_nonneg (by norm_num)]
    exact hos

/-! ## Pixels and tiles -/

theorem truncToInt_intCast (n : ℤ) : truncToInt ((n : K)) = n := by
  unfold truncToInt
  split <;> simp

theorem truncToInt_intCast_sub_one (n : ℤ) : truncToInt ((n : K) - 1) = n - 1 := by
  have h : ((n : K) - 1) = (((n - 1 : ℤ)) : K) := by push_cast; ring
  rw [h, truncToInt_intCast]

/-- The value `PixelsToTile` computes on each axis is `⌈coord / tileSize⌉ - 1`. -/
theorem PixelsToTile_eq (m : GlobalMercator K) (px py : K) :
    m.PixelsToTile px py
      = (⌈px / (m.tileSize : K)⌉ - 1, ⌈py / (m.tileSize : K)⌉ - 1) := by
  simp only [PixelsToTile, truncToInt_intCast_sub_one]

theorem tile_pixel_div (m : GlobalMercator K) (h : 0 < m.tileSize) (t : ℤ) :
    ((t * m.tileSize : ℤ) : K) / (m.tileSize : K) = (t : K) := by
  have ht : (m.tileSize : K) ≠ 0 := by
    have : (0 : K) < (m.tileSize : K) := by exact_mod_cast h
    exact ne_of_gt this
  push_cast
  field_simp

/-- On any projector of positive tile size the pixel at the low corner of tile
`(tx, ty)` is assigned to tile `(tx - 1, ty - 1)`. -/
theorem PixelsToTile_TileToPixels (m : GlobalMercator K) (h : 0 < m.tileSize) (tx ty : ℤ) :
    m.PixelsToTile (m.TileToPixels tx ty).1 (m.TileToPixels tx ty).2 = (tx - 1, ty - 1) := by
  rw [PixelsToTile_eq]
  simp only [TileToPixels]
  rw [tile_pixel_div m h tx, tile_pixel_div m h ty, Int.ceil_intCast, Int.ceil_intCast]

/-- C3, as stated, fails: with tile size 256 the pixel `(0, 0)`, the low corner of tile
`(0, 0)`, is assigned to tile `(-1, -1)`, not to tile `(0, 0)`. -/
theorem C3_boundary_pixel_counterexample :
    (NewGlobalMercator 256).PixelsToTile
        ((NewGlobalMercator 256).TileToPixels 0 0).1
        ((NewGlobalMercator 256).TileToPixels 0 0).2 = (-1, -1) ∧
    (NewGlobalMercator 256).PixelsToTile
        ((NewGlobalMercator 256).TileToPixels 0 0).1
        ((NewGlobalMercator 256).TileToPixels 0 0).2 ≠ (0, 0) := by
  have h := PixelsToTile_TileToPixels (NewGlobalMercator 256)
    (by simp [NewGlobalMercator]) 0 0
  rw [h]
  constructor
  · norm_num
  · decide

/-- C3, amended. For every tile size `> 0` and every tile `(tx, ty)` whose pixel
products `tx·tileSize` and `ty·tileSize` are below `2^53` in magnitude (so that they
neither wrap as `int` nor round as `float64`),
`PixelsToTile(TileToPixels(tx, ty)) = (tx - 1, ty - 1)`: a pixel exactly on a tile
boundary belongs to the tile whose range ends there. -/
theorem C3_boundary_pixel_amended (tileSize : ℤ) (htile : 0 < tileSize) (tx ty : ℤ)
    (htx : |tx * tileSize| < 2 ^ 53) (hty : |ty * tileSize| < 2 ^ 53) :
    (NewGlobalMercator tileSize).PixelsToTile
        ((NewGlobalMercator tileSize).TileToPixels tx ty).1
        ((NewGlobalMercator tileSize).TileToPixels tx ty).2 = (tx - 1, ty - 1) :=
  PixelsToTile_TileToPixels (NewGlobalMercator tileSize) htile tx ty

/-- Witness for the amended C3 at tile size 256 and tile `(3, 5)`. -/
theorem C3_boundary_pixel_amended_witness :
    (NewGlobalMercator 256).PixelsToTile
        ((NewGlobalMercator 256).TileToPixels 3 5).1
        ((NewGlobalMercator 256).TileToPixels 3 5).2 = (3 - 1, 5 - 1) :=
  C3_boundary_pixel_amended 256 (by norm_num) 3 5 (by decide) (by decide)

/-! ## Quadkeys -/

theorem land_natCast (a b : ℕ) : Int.land (a : ℤ) (b : ℤ) = ((a &&& b : ℕ) : ℤ) := rfl

theorem land_two_pow_ne_zero (a n : ℕ) :
    Int.land (a : ℤ) ((1 : ℤ) <<< ((n : ℕ) : ℤ)) ≠ 0 ↔ a / 2 ^ n % 2 = 1 := by
  rw [Int.one_shiftLeft, land_natCast, Nat.and_two_pow]
  rcases Nat.mod_two_eq_zero_or_one (a / 2 ^ n) with h | h
  · have : a.testBit n = false := by
      rw [Nat.testBit_to_div_mod]; simp [h]
    simp [this, h]
  · have : a.testBit n = true := by
      rw [Nat.testBit_to_div_mod]; simp [h]
    simp [this, h]

theorem bit_natCast (a n : ℕ) : bit (a : ℤ) n = ((a / 2 ^ n % 2 : ℕ) : ℤ) := by
  unfold bit
  push_cast
  rfl

theorem quadDigit_natCast (a b n : ℕ) :
    quadDigit (a : ℤ) (b : ℤ) (n + 1) = bit (a : ℤ) n + 2 * bit (b : ℤ) n := by
  rw [bit_natCast, bit_natCast]
  simp only [quadDigit, Nat.add_sub_cancel, land_two_pow_ne_zero]
  rcases Nat.mod_two_eq_zero_or_one (a / 2 ^ n) with h | h <;>
    rcases Nat.mod_two_eq_zero_or_one (b / 2 ^ n) with h2 | h2 <;>
    simp [h, h2]

theorem quadDigit_cases (tx ty : ℤ) (i : ℕ) :
    quadDigit tx ty i = 0 ∨ quadDigit tx ty i = 1 ∨ quadDigit tx ty i = 2 ∨ quadDigit tx ty i = 3 := by
  unfold quadDigit
  dsimp only
  split <;> split <;> simp

theorem toString_quadDigit (tx ty : ℤ) (i : ℕ) :
    (toString (quadDigit tx ty i)).data = [Nat.digitChar (quadDigit tx ty i).toNat] := by
  rcases quadDigit_cases tx ty i with h | h | h | h <;> rw [h] <;> decide

theorem quadLoop_data (tx ty : ℤ) (i : ℕ) (s : String) :
    (quadLoop tx ty i s).data
      = s.data ++ (List.range i).map
          (fun k => Nat.digitChar (quadDigit tx ty (i - k)).toNat) := by
  induction i generalizing s with
  | zero => simp [quadLoop]
  | succ i ih =>
    rw [quadLoop, ih, String.data_append, toString_quadDigit, List.range_succ_eq_map]
    simp [List.map_map, Function.comp_def]

/-- The row flip constant `int(math.Pow(2, float64(zoom)) - 1)` up to zoom 53, where
`2^zoom - 1` is a `float64`. -/
theorem truncToInt_two_pow_sub_one (n : ℕ) (hn : n ≤ 53) :
    truncToInt (round64 ((2 : K) ^ ((n : ℕ) : ℤ) - 1)) = 2 ^ n - 1 := by
  have h : ((2 : K) ^ ((n : ℕ) : ℤ) - 1) = (((2 ^ n - 1 : ℤ)) : K) := by
    rw [zpow_natCast]; push_cast; ring
  have hle : (2 : ℤ) ^ n ≤ 2 ^ 53 := pow_le_pow_right₀ (by norm_num) hn
  have hpos : (0 : ℤ) < 2 ^ n := by positivity
  have habs : |(2 : ℤ) ^ n - 1| < 2 ^ 53 := by
    rw [abs_lt]
    constructor <;> omega
  rw [h, round64_intCast _ habs, truncToInt_intCast]

/-- The row flip constant from zoom 54 on, where `2^zoom - 1` rounds to `2^zoom`. -/
theorem truncToInt_two_pow_rounded (n : ℕ) (hn : 54 ≤ n) :
    truncToInt (round64 ((2 : K) ^ ((n : ℕ) : ℤ) - 1)) = 2 ^ n := by
  have h : (2 : K) ^ n = (((2 ^ n : ℤ)) : K) := by push_cast; ring
  rw [round64_two_pow_sub_one n hn, h, truncToInt_intCast]

/-- The characters of a quadkey, in terms of the row flip constant. -/
theorem QuadTree_data (m : GlobalMercator K) (tx ty : ℤ) (n : ℕ) :
    (m.QuadTree tx ty (n : ℤ)).data
      = (List.range n).map
          (fun k => Nat.digitChar
            (quadDigit tx (truncToInt (round64 ((2 : K) ^ ((n : ℕ) : ℤ) - 1)) - ty)
              (n - k)).toNat) := by
  simp only [QuadTree, Int.toNat_natCast, quadLoop_data]
  simp

theorem bit_nonneg_le (x : ℤ) (i : ℕ) : 0 ≤ bit x i ∧ bit x i ≤ 1 := by
  unfold bit
  constructor
  · exact Int.emod_nonneg _ (by norm_num)
  · have := Int.emod_lt_of_pos (x / 2 ^ i) (show (0 : ℤ) < 2 by norm_num)
    omega

theorem digitChar_mem (d : ℤ) (h0 : 0 ≤ d) (h3 : d ≤ 3) :
    Nat.digitChar d.toNat ∈ ['0', '1', '2', '3'] := by
  have h : d = 0 ∨ d = 1 ∨ d = 2 ∨ d = 3 := by omega
  rcases h with h | h | h | h <;> rw [h] <;> decide

/-- C4, as stated, fails at zoom 54: `2^54 - 1` rounds to `2^54`, the flipped row of
tile `(0, 0)` is `2^54`, and the first character of `QuadTree(0, 0, 54)` is `0`, where
the claim gives the digit `bit(0, 53) + 2·bit(2^54 - 1, 53) = 2`. -/
theorem C4_quadtree_digits_counterexample :
    ((NewGlobalMercator 256).QuadTree 0 0 ((54 : ℕ) : ℤ)).data[0]? = some '0' ∧
    Nat.digitChar (bit 0 (54 - 1 - 0) + 2 * bit (2 ^ 54 - 1 - 0) (54 - 1 - 0)).toNat = '2' := by
  constructor
  · rw [QuadTree_data, List.getElem?_map, List.getElem?_range (by norm_num), Option.map_some',
      truncToInt_two_pow_rounded 54 (by norm_num)]
    have h : quadDigit 0 (2 ^ 54 - 0) (54 - 0) = 0 := by decide
    rw [h]
    rfl
  · decide

/-- C4, amended. For every zoom with `0 ≤ zoom ≤ 53`, every tile with
`0 ≤ tx, ty < 2^zoom` and every position `k < zoom`, the `k`-th character of
`QuadTree(tx, ty, zoom)` is the decimal digit `bit(tx, i) + 2·bit(gty, i)` with
`i = zoom - 1 - k` and `gty = 2^zoom - 1 - ty`; the digit lies in `0..3`, so the
character is one of `0`, `1`, `2`, `3`, and position `0` carries the most significant
bit `zoom - 1`. -/
theorem C4_quadtree_digits_amended (m : GlobalMercator K) (zoom : ℕ) (tx ty : ℤ) (k : ℕ)
    (hz : zoom ≤ 53)
    (htx0 : 0 ≤ tx) (htx : tx < 2 ^ zoom) (hty0 : 0 ≤ ty) (hty : ty < 2 ^ zoom)
    (hk : k < zoom) :
    (m.QuadTree tx ty (zoom : ℤ)).data[k]?
        = some (Nat.digitChar
            (bit tx (zoom - 1 - k) + 2 * bit (2 ^ zoom - 1 - ty) (zoom - 1 - k)).toNat) ∧
    Nat.digitChar (bit tx (zoom - 1 - k) + 2 * bit (2 ^ zoom - 1 - ty) (zoom - 1 - k)).toNat
      ∈ ['0', '1', '2', '3'] := by
  have hb1 := bit_nonneg_le tx (zoom - 1 - k)
  have hb2 := bit_nonneg_le (2 ^ zoom - 1 - ty) (zoom - 1 - k)
  refine ⟨?_, digitChar_mem _ (by omega) (by omega)⟩
  have hg0 : (0 : ℤ) ≤ 2 ^ zoom - 1 - ty := by omega
  obtain ⟨a, rfl⟩ := Int.eq_ofNat_of_zero_le htx0
  obtain ⟨b, hb⟩ := Int.eq_ofNat_of_zero_le hg0
  have hidx : zoom - k = (zoom - 1 - k) + 1 := by omega
  rw [QuadTree_data, List.getElem?_map, List.getElem?_range hk, Option.map_some',
    truncToInt_two_pow_sub_one zoom hz, hb, hidx, quadDigit_natCast]

/-- Witness for the amended C4: tile `(3, 5)` at zoom 3, position 1 (the quadkey is
`031`). -/
theorem C4_quadtree_digits_amended_witness :
    (sampleMercator.QuadTree 3 5 ((3 : ℕ) : ℤ)).data[1]?
        = some (Nat.digitChar (bit 3 (3 - 1 - 1) + 2 * bit (2 ^ 3 - 1 - 5) (3 - 1 - 1)).toNat) ∧
    Nat.digitChar (bit 3 (3 - 1 - 1) + 2 * bit (2 ^ 3 - 1 - 5) (3 - 1 - 1)).toNat
      ∈ ['0', '1', '2', '3'] :=
  C4_quadtree_digits_amended sampleMercator 3 3 5 1 (by decide) (by decide) (by decide)
    (by decide) (by decide) (by decide)

/-- C5. For every `tx`, `ty` and every zoom `≥ 0` the string `QuadTree(tx, ty, zoom)`
has length exactly `zoom`, and `QuadTree(tx, ty, 0)` is the empty string. -/
theorem C5_quadtree_length (m : GlobalMercator K) (tx ty zoom : ℤ) (hz : 0 ≤ zoom) :
    ((m.QuadTree tx ty zoom).length : ℤ) = zoom ∧ m.QuadTree tx ty 0 = "" := by
  constructor
  · obtain ⟨n, rfl⟩ := Int.eq_ofNat_of_zero_le hz
    rw [String.length, QuadTree_data]
    simp
  · simp [QuadTree, quadLoop]

/-- Witness for C5: the quadkey of tile `(3, 5)` at zoom 3 has length 3. -/
theorem C5_quadtree_length_witness :
    ((sampleMercator.QuadTree 3 5 3).length : ℤ) = 3 ∧ sampleMercator.QuadTree 3 5 0 = "" :=
  C5_quadtree_length sampleMercator 3 5 3 (by decide)

/-! ## Google tiles -/

theorem GoogleTile_natCast (m : GlobalMercator K) (tx ty : ℤ) (n : ℕ) (hn : n ≤ 53) :
    m.GoogleTile tx ty (n : ℤ) = (tx, 2 ^ n - 1 - ty) := by
  simp only [GoogleTile, truncToInt_two_pow_sub_one n hn]

theorem GoogleTile_rounded (m : GlobalMercator K) (tx ty : ℤ) (n : ℕ) (hn : 54 ≤ n) :
    m.GoogleTile tx ty (n : ℤ) = (tx, 2 ^ n - ty) := by
  simp only [GoogleTile, truncToInt_two_pow_rounded n hn]

/-- C6, as stated, fails at zoom 54: `2^54 - 1` is not a `float64` and rounds to `2^54`,
so `GoogleTile(0, 0, 54)` has row `2^54 = 18014398509481984` and not `2^54 - 1`. -/
theorem C6_googletile_flip_counterexample :
    (NewGlobalMercator 256).GoogleTile 0 0 54 = (0, 18014398509481984) ∧
    (NewGlobalMercator 256).GoogleTile 0 0 54 ≠ (0, 2 ^ (54 : ℤ).toNat - 1 - 0) := by
  have h := GoogleTile_rounded (NewGlobalMercator 256) 0 0 54 (by norm_num)
  have h54 : (((54 : ℕ)) : ℤ) = 54 := rfl
  rw [h54] at h
  rw [h]
  constructor
  · norm_num
  · decide

/-- C6, amended. For every zoom with `0 ≤ zoom ≤ 53` and every `tx`, `ty` whose flipped
row `2^zoom - 1 - ty` fits in an `int` (`ty < 2^63` and `2^zoom - 1 - ty < 2^63`),
`GoogleTile(tx, ty, zoom) = (tx, 2^zoom - 1 - ty)`: the column is unchanged and the row
is flipped about the grid of `2^zoom` rows. -/
theorem C6_googletile_flip_amended (m : GlobalMercator K) (tx ty zoom : ℤ) (hz : 0 ≤ zoom)
    (hz53 : zoom ≤ 53) (hty : ty < 2 ^ 63) (hrow : 2 ^ zoom.toNat - 1 - ty < 2 ^ 63) :
    m.GoogleTile tx ty zoom = (tx, 2 ^ zoom.toNat - 1 - ty) := by
  obtain ⟨n, rfl⟩ := Int.eq_ofNat_of_zero_le hz
  rw [GoogleTile_natCast m tx ty n (by omega), Int.toNat_natCast]

/-- Witness for the amended C6: tile `(3, 5)` at zoom 3 becomes `(3, 2)`. -/
theorem C6_googletile_flip_amended_witness :
    sampleMercator.GoogleTile 3 5 3 = (3, 2 ^ (3 : ℤ).toNat - 1 - 5) :=
  C6_googletile_flip_amended sampleMercator 3 5 3 (by decide) (by decide) (by decide)
    (by decide)

/-- C7. `GoogleTile` is an involution: for every zoom `≥ 0` and every tile with
`0 ≤ tx, ty < 2^zoom`, applying `GoogleTile` at the same zoom to
`GoogleTile(tx, ty, zoom)` gives back `(tx, ty)`. -/
theorem C7_googletile_involution (m : GlobalMercator K) (tx ty zoom : ℤ) (hz : 0 ≤ zoom)
    (htx0 : 0 ≤ tx) (htx : tx < 2 ^ zoom.toNat) (hty0 : 0 ≤ ty) (hty : ty < 2 ^ zoom.toNat) :
    m.GoogleTile (m.GoogleTile tx ty zoom).1 (m.GoogleTile tx ty zoom).2 zoom = (tx, ty) := by
  simp only [GoogleTile]
  refine Prod.ext rfl ?_
  show truncToInt (round64 ((2 : K) ^ zoom - 1))
      - (truncToInt (round64 ((2 : K) ^ zoom - 1)) - ty) = ty
  ring

/-- Witness for C7: tile `(3, 5)` at zoom 3. -/
theorem C7_googletile_involution_witness :
    sampleMercator.GoogleTile (sampleMercator.GoogleTile 3 5 3).1
      (sampleMercator.GoogleTile 3 5 3).2 3 = (3, 5) :=
  C7_googletile_involution sampleMercator 3 5 3 (by decide) (by decide) (by decide)
    (by decide) (by decide)

/-! ## Resolution and zoom levels -/

/-- The loop panics when no remaining zoom level has a resolution below the pixel size. -/
theorem zoomLoop_none (m : GlobalMercator K) (p : K) (n : ℕ) (i : ℤ)
    (h : ∀ j : ℤ, i ≤ j → j < i + n → ¬ m.Resolution j < p) :
    zoomLoop m p n i = none := by
  induction n generalizing i with
  | zero => rfl
  | succ n ih =>
    have hi : ¬ p > m.Resolution i := h i le_rfl (by push_cast; omega)
    rw [zoomLoop, if_neg hi]
    apply ih
    intro j h1 h2
    exact h j (by omega) (by push_cast; omega)

/-- The loop returns at the first remaining zoom level whose resolution is below the
pixel size. -/
theorem zoomLoop_first (m : GlobalMercator K) (p : K) (n : ℕ) (i c : ℤ)
    (hic : i ≤ c) (hcn : c < i + n) (hc : m.Resolution c < p)
    (hmin : ∀ j : ℤ, i ≤ j → j < c → ¬ m.Resolution j < p) :
    zoomLoop m p n i = some (if c ≠ 0 then c - 1 else 0) := by
  induction n generalizing i with
  | zero => simp at hcn; omega
  | succ n ih =>
    rw [zoomLoop]
    by_cases hi : i = c
    · subst hi
      rw [if_pos hc]
      split <;> rfl
    · have hlt : i < c := lt_of_le_of_ne hic hi
      have hni : ¬ p > m.Resolution i := hmin i le_rfl hlt
      rw [if_neg hni]
      apply ih
      · omega
      · push_cast at hcn; omega
      · intro j h1 h2
        exact hmin j (by omega) h2

/-- C9. For every tile size `> 0` and every `pixelSize` for which some zoom `i` in
`[0, 29]` has `Resolution(i) < pixelSize`, `ZoomForPixelSize(pixelSize)` returns `i - 1`
for the first such `i`, or `0` when that first `i` is `0`; the returned zoom lies in
`0..29`. -/
theorem C9_zoom_first_crossing (tileSize : ℤ) (htile : 0 < tileSize) (pixelSize : ℝ) (i : ℤ)
    (hi0 : 0 ≤ i) (hi29 : i ≤ 29)
    (hcross : (NewGlobalMercator tileSize).Resolution i < pixelSize)
    (hfirst : ∀ j : ℤ, 0 ≤ j → j < i → ¬ (NewGlobalMercator tileSize).Resolution j < pixelSize) :
    ∃ z : ℤ, (NewGlobalMercator tileSize).ZoomForPixelSize pixelSize = some z ∧
      z = (if i = 0 then 0 else i - 1) ∧ 0 ≤ z ∧ z ≤ 29 := by
  refine ⟨if i ≠ 0 then i - 1 else 0, ?_, ?_, ?_, ?_⟩
  · exact zoomLoop_first _ pixelSize 30 0 i hi0 (by push_cast; omega) hcross hfirst
  · by_cases h : i = 0 <;> simp [h]
  · by_cases h : i = 0 <;> simp [h]; omega
  · by_cases h : i = 0 <;> simp [h]; omega

/-- Witness for C9 at tile size 256 and pixel size 50000: the first zoom whose resolution
is below 50000 is zoom 2, and zoom 1 is returned. -/
theorem C9_zoom_first_crossing_witness :
    ∃ z : ℤ, (NewGlobalMercator 256).ZoomForPixelSize 50000 = some z ∧
      z = (if (2 : ℤ) = 0 then 0 else 2 - 1) ∧ 0 ≤ z ∧ z ≤ 29 := by
  have hpi3 := Real.pi_gt_three
  have hpi4 := Real.pi_le_four
  have hres : ∀ j : ℤ, j < 1024 → (NewGlobalMercator 256).Resolution j
      = 2 * Real.pi * 6378137 / 256 / (2 : ℝ) ^ j := by
    intro j hj
    rw [Resolution_of_lt _ j hj]
    simp [NewGlobalMercator]
  refine C9_zoom_first_crossing 256 (by norm_num) 50000 2 (by norm_num) (by norm_num) ?_ ?_
  · rw [hres 2 (by norm_num)]
    norm_num
    linarith
  · intro j hj0 hj2
    have hj : j = 0 ∨ j = 1 := by omega
    rw [hres j (by omega)]
    rcases hj with rfl | rfl
    · norm_num
      linarith
    · norm_num
      linarith

/-- C10. `ZoomForPixelSize(pixelSize)` panics if and only if no zoom level `i` in
`[0, 29]` has `Resolution(i) < pixelSize`. -/
theorem C10_zoom_panics_iff (m : GlobalMercator K) (pixelSize : K) :
    m.ZoomForPixelSize pixelSize = none ↔
      ∀ i : ℤ, 0 ≤ i → i ≤ 29 → ¬ m.Resolution i < pixelSize := by
  constructor
  · intro hnone i hi0 hi29 hres
    by_contra _
    have hex : ∃ c : ℕ, c < 30 ∧ m.Resolution (c : ℤ) < pixelSize :=
      ⟨i.toNat, by omega, by rwa [Int.toNat_of_nonneg hi0]⟩
    classical
    have hc := Nat.find_spec hex
    have hmin : ∀ j : ℤ, 0 ≤ j → j < (Nat.find hex : ℤ) → ¬ m.Resolution j < pixelSize := by
      intro j hj0 hjc hj
      have : j.toNat < Nat.find hex := by omega
      exact Nat.find_min hex this ⟨by omega, by rwa [Int.toNat_of_nonneg hj0]⟩
    have hsome := zoomLoop_first m pixelSize 30 0 (Nat.find hex) (by omega)
      (by push_cast; omega) hc.2 hmin
    unfold ZoomForPixelSize at hnone
    rw [hnone] at hsome
    exact Option.noConfusion hsome
  · intro h
    exact zoomLoop_none m pixelSize 30 0 (fun j h1 h2 => h j h1 (by push_cast at h2; omega))

/-- A coarser zoom level never has a smaller resolution. -/
theorem Resolution_antitone (m : GlobalMercator K) (h : 0 ≤ m.initialResolution) (i j : ℤ)
    (hij : i ≤ j) : m.Resolution j ≤ m.Resolution i := by
  have hp : (0 : K) < (2 : K) ^ i := zpow_pos (by norm_num) i
  by_cases hj : 1024 ≤ j
  · rw [Resolution_of_ge m j hj]
    by_cases hi : 1024 ≤ i
    · rw [Resolution_of_ge m i hi]
    · rw [Resolution_of_lt m i (by omega)]
      positivity
  · rw [Resolution_of_lt m j (by omega), Resolution_of_lt m i (by omega)]
    have h2 : (2 : K) ^ i ≤ (2 : K) ^ j := zpow_le_zpow_right₀ (by norm_num) hij
    exact div_le_div_of_nonneg_left h hp h2

/-- The loop returns a zoom as soon as one remaining level has a resolution below the
pixel size. -/
theorem zoomLoop_ne_none (m : GlobalMercator K) (p : K) (n : ℕ) (i c : ℤ)
    (hic : i ≤ c) (hcn : c < i + n) (hc : m.Resolution c < p) :
    zoomLoop m p n i ≠ none := by
  induction n generalizing i with
  | zero => simp at hcn; omega
  | succ n ih =>
    rw [zoomLoop]
    by_cases hi : p > m.Resolution i
    · rw [if_pos hi]
      split <;> simp
    · rw [if_neg hi]
      have hne : i ≠ c := by
        rintro rfl
        exact hi hc
      apply ih
      · omega
      · push_cast at hcn; omega

/-- A zoom returned by the loop comes from the first remaining level whose resolution is
below the pixel size. -/
theorem zoomLoop_some (m : GlobalMercator K) (p : K) (n : ℕ) (i z : ℤ)
    (h : zoomLoop m p n i = some z) :
    ∃ c : ℤ, i ≤ c ∧ c < i + n ∧ m.Resolution c < p ∧
      (∀ j : ℤ, i ≤ j → j < c → ¬ m.Resolution j < p) ∧
      z = (if c ≠ 0 then c - 1 else 0) := by
  induction n generalizing i with
  | zero => simp [zoomLoop] at h
  | succ n ih =>
    rw [zoomLoop] at h
    by_cases hi : p > m.Resolution i
    · rw [if_pos hi] at h
      refine ⟨i, le_rfl, by push_cast; omega, hi, fun j h1 h2 => by omega, ?_⟩
      by_cases h0 : i ≠ 0
      · rw [if_pos h0] at h
        rw [if_pos h0]
        exact (Option.some.inj h).symm
      · rw [if_neg h0] at h
        rw [if_neg h0]
        exact (Option.some.inj h).symm
    · rw [if_neg hi] at h
      obtain ⟨c, h1, h2, h3, h4, h5⟩ := ih (i + 1) h
      refine ⟨c, by omega, by push_cast; omega, h3, ?_, h5⟩
      intro j hj1 hj2
      by_cases hji : j = i
      · rw [hji]; exact hi
      · exact h4 j (by omega) hj2

theorem ZoomForPixelSize_none_iff_le (m : GlobalMercator K) (h : 0 ≤ m.initialResolution)
    (p : K) : m.ZoomForPixelSize p = none ↔ p ≤ m.Resolution 29 := by
  unfold ZoomForPixelSize
  constructor
  · intro hnone
    by_contra hlt
    exact zoomLoop_ne_none m p 30 0 29 (by norm_num) (by norm_num) (not_le.mp hlt) hnone
  · intro hle
    apply zoomLoop_none
    intro j h1 h2 hj
    have hj29 : j ≤ 29 := by push_cast at h2; omega
    have := Resolution_antitone m h j 29 hj29
    exact absurd (lt_of_lt_of_le hj hle) (not_lt.mpr this)

theorem Resolution_NewGlobalMercator (tileSize : ℤ) (j : ℤ) (hj : j < 1024) :
    (NewGlobalMercator tileSize).Resolution j
      = 2 * Real.pi * 6378137 / (tileSize : ℝ) / (2 : ℝ) ^ j := by
  rw [Resolution_of_lt _ j hj]
  rfl

/-- C11, as stated, fails: with tile size 256 the pixel size `1/10000` is positive and
at most `Resolution(0)`, yet `ZoomForPixelSize` panics on it. -/
theorem C11_zoom_failure_counterexample :
    (NewGlobalMercator 256).ZoomForPixelSize (1 / 10000) = none ∧
    ¬ ((1 / 10000 : ℝ) ≤ 0 ∨ (1 / 10000 : ℝ) > (NewGlobalMercator 256).Resolution 0) := by
  have hpi := Real.pi_gt_three
  constructor
  · rw [ZoomForPixelSize_none_iff_le _ (le_of_lt (initialResolution_pos 256 (by norm_num)))]
    rw [Resolution_NewGlobalMercator _ _ (by omega)]
    norm_num
    rw [le_div_iff₀ (by norm_num)]
    linarith
  · rw [Resolution_NewGlobalMercator _ _ (by omega)]
    norm_num
    rw [le_div_iff₀ (by norm_num)]
    linarith

/-- C11, amended. For every tile size `> 0`, `ZoomForPixelSize(pixelSize)` panics exactly
when `pixelSize ≤ Resolution(29)`, the finest resolution scanned: whenever it fails the
pixel size is at most `Resolution(29)`, and every pixel size above `Resolution(29)` gets
a zoom returned. -/
theorem C11_zoom_failure_amended (tileSize : ℤ) (htile : 0 < tileSize) (pixelSize : ℝ) :
    ((NewGlobalMercator tileSize).ZoomForPixelSize pixelSize = none ↔
      pixelSize ≤ (NewGlobalMercator tileSize).Resolution 29) ∧
    ((NewGlobalMercator tileSize).Resolution 29 < pixelSize →
      ∃ z : ℤ, (NewGlobalMercator tileSize).ZoomForPixelSize pixelSize = some z) := by
  have hiff := ZoomForPixelSize_none_iff_le (NewGlobalMercator tileSize)
    (le_of_lt (initialResolution_pos tileSize htile)) pixelSize
  refine ⟨hiff, fun hlt => ?_⟩
  cases hz : (NewGlobalMercator tileSize).ZoomForPixelSize pixelSize with
  | none => exact absurd (hiff.mp hz) (not_le.mpr hlt)
  | some z => exact ⟨z, rfl⟩

/-- Witness for the amended C11 at tile size 256 and pixel size 100. -/
theorem C11_zoom_failure_amended_witness :
    ((NewGlobalMercator 256).ZoomForPixelSize 100 = none ↔
      (100 : ℝ) ≤ (NewGlobalMercator 256).Resolution 29) ∧
    ((NewGlobalMercator 256).Resolution 29 < 100 →
      ∃ z : ℤ, (NewGlobalMercator 256).ZoomForPixelSize 100 = some z) :=
  C11_zoom_failure_amended 256 (by norm_num) 100

/-- C12. `ZoomForPixelSize` is antitone: for every tile size `> 0` and pixel sizes
`p ≤ q` on which a zoom is returned, `ZoomForPixelSize(q) ≤ ZoomForPixelSize(p)`. -/
theorem C12_zoom_antitone (tileSize : ℤ) (htile : 0 < tileSize) (p q : ℝ) (zp zq : ℤ)
    (hpq : p ≤ q)
    (hp : (NewGlobalMercator tileSize).ZoomForPixelSize p = some zp)
    (hq : (NewGlobalMercator tileSize).ZoomForPixelSize q = some zq) :
    zq ≤ zp := by
  obtain ⟨cp, hp0, _, hpc, _, hzp⟩ := zoomLoop_some _ p 30 0 zp hp
  obtain ⟨cq, hq0, _, _, hqmin, hzq⟩ := zoomLoop_some _ q 30 0 zq hq
  have hle : cq ≤ cp := by
    by_contra hlt
    exact hqmin cp hp0 (by omega) (lt_of_lt_of_le hpc hpq)
  rw [hzp, hzq]
  by_cases h1 : cq = 0 <;> by_cases h2 : cp = 0 <;> simp [h1, h2] <;> omega

/-- Witness for C12 at tile size 256: pixel size 50000 gets zoom 1, pixel size 1000000
gets zoom 0, and `0 ≤ 1`. -/
theorem C12_zoom_antitone_witness :
    (NewGlobalMercator 256).ZoomForPixelSize 50000 = some 1 ∧
    (NewGlobalMercator 256).ZoomForPixelSize 1000000 = some 0 ∧ (0 : ℤ) ≤ 1 := by
  have hpi3 := Real.pi_gt_three
  have hpi4 := Real.pi_le_four
  have hp : (NewGlobalMercator 256).ZoomForPixelSize 50000 = some 1 := by
    have h := zoomLoop_first (NewGlobalMercator 256) 50000 30 0 2 (by norm_num) (by norm_num)
      (by rw [Resolution_NewGlobalMercator _ _ (by omega)]; norm_num; linarith)
      (by
        intro j hj0 hj2
        have hj : j = 0 ∨ j = 1 := by omega
        rw [Resolution_NewGlobalMercator _ _ (by omega)]
        rcases hj with rfl | rfl
        · norm_num; linarith
        · norm_num; linarith)
    simpa [ZoomForPixelSize] using h
  have hq : (NewGlobalMercator 256).ZoomForPixelSize 1000000 = some 0 := by
    have h := zoomLoop_first (NewGlobalMercator 256) 1000000 30 0 0 (by norm_num) (by norm_num)
      (by rw [Resolution_NewGlobalMercator _ _ (by omega)]; norm_num; linarith)
      (by intro j hj0 hj2; omega)
    simpa [ZoomForPixelSize] using h
  exact ⟨hp, hq, C12_zoom_antitone 256 (by norm_num) 50000 1000000 1 0 (by norm_num) hp hq⟩

/-! ## The constructor -/

/-- C13, as stated, fails: `NewGlobalMercator(-256)` returns a projector, with tile size
`-256` and a negative initial resolution, and `PixelsToTile` on it divides by `-256`. -/
theorem C13_constructor_counterexample :
    ∃ m : GlobalMercator ℝ, NewGlobalMercator (-256) = m ∧ m.TileSize = -256 ∧
      m.initialResolution < 0 ∧ m.PixelsToTile 256 256 = (-2, -2) := by
  have hpi := Real.pi_pos
  refine ⟨NewGlobalMercator (-256), rfl, rfl, ?_, ?_⟩
  · simp only [NewGlobalMercator]
    push_cast
    apply div_neg_of_pos_of_neg
    · positivity
    · norm_num
  · rw [PixelsToTile_eq]
    have h : (256 : ℝ) / (((NewGlobalMercator (-256)).tileSize : ℤ) : ℝ) = ((-1 : ℤ) : ℝ) := by
      simp only [NewGlobalMercator]
      push_cast
      norm_num
    rw [h, Int.ceil_intCast]
    rfl

/-- C13, amended. `NewGlobalMercator` validates nothing: for every tile size `≤ 0` it
returns a projector whose `TileSize()` is the given tile size and whose origin shift is
`π·6378137`; for a negative tile size the initial resolution
`2π·6378137 / tileSize` is negative. -/
theorem C13_constructor_amended (tileSize : ℤ) (htile : tileSize ≤ 0) :
    ∃ m : GlobalMercator ℝ, NewGlobalMercator tileSize = m ∧ m.TileSize = tileSize ∧
      m.originShift = Real.pi * 6378137 ∧
      (tileSize < 0 → m.initialResolution = 2 * Real.pi * 6378137 / (tileSize : ℝ) ∧
        m.initialResolution < 0) := by
  have hpi := Real.pi_pos
  refine ⟨NewGlobalMercator tileSize, rfl, rfl, ?_, ?_⟩
  · simp only [NewGlobalMercator]
    ring
  · intro hneg
    refine ⟨rfl, ?_⟩
    simp only [NewGlobalMercator]
    apply div_neg_of_pos_of_neg
    · positivity
    · exact_mod_cast hneg

/-- Witness for the amended C13 at tile size `-1`. -/
theorem C13_constructor_amended_witness :
    ∃ m : GlobalMercator ℝ, NewGlobalMercator (-1) = m ∧ m.TileSize = -1 ∧
      m.originShift = Real.pi * 6378137 ∧
      ((-1 : ℤ) < 0 → m.initialResolution = 2 * Real.pi * 6378137 / (((-1 : ℤ)) : ℝ) ∧
        m.initialResolution < 0) :=
  C13_constructor_amended (-1) (by norm_num)

theorem originShift_eq (tileSize : ℤ) :
    (NewGlobalMercator tileSize).originShift = Real.pi * 6378137 := by
  simp only [NewGlobalMercator]
  ring

/-- The origin shift is within `10⁻⁶` of `20037508.342789244`. -/
theorem originShift_approx (tileSize : ℤ) :
    |(NewGlobalMercator tileSize).originShift - 20037508.342789244| ≤ 1 / 1000000 := by
  have h1 := Real.pi_gt_d20
  have h2 := Real.pi_lt_d20
  rw [originShift_eq, abs_le]
  constructor <;> norm_num at h1 h2 ⊢ <;> linarith

/-- The meters of a tile corner: pixel `t·tileSize` at resolution `Resolution(zoom)`. -/
theorem tile_corner (tileSize : ℤ) (htile : 0 < tileSize) (t : ℤ) (zoom : ℤ)
    (hz : zoom < 1024) :
    ((t * (NewGlobalMercator tileSize).tileSize : ℤ) : ℝ)
        * (NewGlobalMercator tileSize).Resolution zoom
        - (NewGlobalMercator tileSize).originShift
      = (t : ℝ) * (2 * (Real.pi * 6378137) / (2 : ℝ) ^ zoom) - Real.pi * 6378137 := by
  have ht : (tileSize : ℝ) ≠ 0 := by
    have : (0 : ℝ) < (tileSize : ℝ) := by exact_mod_cast htile
    exact ne_of_gt this
  rw [originShift_eq, Resolution_NewGlobalMercator _ _ hz]
  simp only [NewGlobalMercator]
  push_cast
  field_simp
  ring

theorem TileBounds_NewGlobalMercator (tileSize : ℤ) (htile : 0 < tileSize) (tx ty zoom : ℤ)
    (hz : zoom < 1024) :
    (NewGlobalMercator tileSize).TileBounds tx ty zoom
      = ((tx : ℝ) * (2 * (Real.pi * 6378137) / (2 : ℝ) ^ zoom) - Real.pi * 6378137,
         (ty : ℝ) * (2 * (Real.pi * 6378137) / (2 : ℝ) ^ zoom) - Real.pi * 6378137,
         ((tx : ℝ) + 1) * (2 * (Real.pi * 6378137) / (2 : ℝ) ^ zoom) - Real.pi * 6378137,
         ((ty : ℝ) + 1) * (2 * (Real.pi * 6378137) / (2 : ℝ) ^ zoom) - Real.pi * 6378137) := by
  simp only [TileBounds, PixelsToMeters]
  rw [tile_corner tileSize htile tx zoom hz, tile_corner tileSize htile ty zoom hz,
    tile_corner tileSize htile (tx + 1) zoom hz, tile_corner tileSize htile (ty + 1) zoom hz]
  push_cast
  rfl

/-- C14. For every tile size `> 0`, `TileBounds(0, 0, 0)` is
`(-originShift, -originShift, originShift, originShift)`: the single tile of zoom 0
covers the whole projected world; `originShift` is within `0.01` of `20037508.34`. -/
theorem C14_world_tile_bounds (tileSize : ℤ) (htile : 0 < tileSize) :
    (NewGlobalMercator tileSize).TileBounds 0 0 0
      = (-(NewGlobalMercator tileSize).originShift, -(NewGlobalMercator tileSize).originShift,
         (NewGlobalMercator tileSize).originShift, (NewGlobalMercator tileSize).originShift) ∧
    |(NewGlobalMercator tileSize).originShift - 20037508.34| ≤ 1 / 100 := by
  constructor
  · rw [TileBounds_NewGlobalMercator tileSize htile 0 0 0 (by norm_num), originShift_eq]
    norm_num
    ring
  · have h := originShift_approx tileSize
    rw [abs_le] at h ⊢
    constructor <;> norm_num at h ⊢ <;> linarith

/-- Witness for C14 at tile size 256. -/
theorem C14_world_tile_bounds_witness :
    (NewGlobalMercator 256).TileBounds 0 0 0
      = (-(NewGlobalMercator 256).originShift, -(NewGlobalMercator 256).originShift,
         (NewGlobalMercator 256).originShift, (NewGlobalMercator 256).originShift) ∧
    |(NewGlobalMercator 256).originShift - 20037508.34| ≤ 1 / 100 :=
  C14_world_tile_bounds 256 (by norm_num)

/-- C15. For every tile size `> 0`, `NewGlobalMercator(tileSize)` stores `tileSize`
(returned by `TileSize`), `initialResolution = 2π·6378137 / tileSize` and
`originShift = π·6378137`; for tile size 256, `Resolution(0)` is within `10⁻⁶` of
`156543.03392804062`, and `originShift` is within `10⁻⁶` of `20037508.342789244`. -/
theorem C15_constructor_constants (tileSize : ℤ) (htile : 0 < tileSize) :
    (NewGlobalMercator tileSize).TileSize = tileSize ∧
    (NewGlobalMercator tileSize).initialResolution = 2 * Real.pi * 6378137 / (tileSize : ℝ) ∧
    (NewGlobalMercator tileSize).originShift = Real.pi * 6378137 ∧
    |(NewGlobalMercator 256).Resolution 0 - 156543.03392804062| ≤ 1 / 1000000 ∧
    |(NewGlobalMercator tileSize).originShift - 20037508.342789244| ≤ 1 / 1000000 := by
  refine ⟨rfl, rfl, originShift_eq tileSize, ?_, originShift_approx tileSize⟩
  have h1 := Real.pi_gt_d20
  have h2 := Real.pi_lt_d20
  rw [Resolution_NewGlobalMercator _ _ (by norm_num), abs_le]
  constructor <;> norm_num at h1 h2 ⊢ <;> linarith

/-- Witness for C15 at tile size 256. -/
theorem C15_constructor_constants_witness :
    (NewGlobalMercator 256).TileSize = 256 ∧
    (NewGlobalMercator 256).initialResolution = 2 * Real.pi * 6378137 / ((256 : ℤ) : ℝ) ∧
    (NewGlobalMercator 256).originShift = Real.pi * 6378137 ∧
    |(NewGlobalMercator 256).Resolution 0 - 156543.03392804062| ≤ 1 / 1000000 ∧
    |(NewGlobalMercator 256).originShift - 20037508.342789244| ≤ 1 / 1000000 :=
  C15_constructor_constants 256 (by norm_num)

/-- C16. For every tile size `> 0`, `LatLonToMeters(0, 0) = (0, 0)` over exact real
arithmetic: latitude 0, longitude 0 is the origin of the projected plane. -/
theorem C16_origin_maps_to_origin (tileSize : ℤ) (htile : 0 < tileSize) :
    (NewGlobalMercator tileSize).LatLonToMeters 0 0 = (0, 0) := by
  have h : (90 + (0 : ℝ)) * Real.pi / 360 = Real.pi / 4 := by ring
  simp only [LatLonToMeters]
  rw [h, Real.tan_pi_div_four, Real.log_one]
  simp

/-- Witness for C16 at tile size 256. -/
theorem C16_origin_maps_to_origin_witness :
    (NewGlobalMercator 256).LatLonToMeters 0 0 = (0, 0) :=
  C16_origin_maps_to_origin 256 (by norm_num)

/-! ## Meters, tiles and bounds -/

/-- One axis of meters → tile → bounds: the tile index `⌈px / tileSize⌉ - 1` computed from
`px = (x + originShift) / res` has its low corner strictly below `x` and its high corner
at or above `x`. -/
theorem axis_in_tile (ts : ℤ) (hts : 0 < ts) (res os x : K) (hres : 0 < res) :
    (((⌈(x + os) / res / (ts : K)⌉ - 1) * ts : ℤ) : K) * res - os < x ∧
    x ≤ ((((⌈(x + os) / res / (ts : K)⌉ - 1) + 1) * ts : ℤ) : K) * res - os := by
  have hs : (0 : K) < (ts : K) := by exact_mod_cast hts
  have hsr : (0 : K) < (ts : K) * res := mul_pos hs hres
  have hres0 : res ≠ 0 := ne_of_gt hres
  have hs0 : (ts : K) ≠ 0 := ne_of_gt hs
  have hu : (x + os) / res / (ts : K) * ((ts : K) * res) = x + os := by
    rw [div_div, mul_comm (ts : K) res, div_mul_cancel₀ _ (mul_ne_zero hres0 hs0)]
  have h1 := Int.ceil_lt_add_one ((x + os) / res / (ts : K))
  have h2 := Int.le_ceil ((x + os) / res / (ts : K))
  have h3 : ((⌈(x + os) / res / (ts : K)⌉ : K) - 1) * ((ts : K) * res)
      < (x + os) / res / (ts : K) * ((ts : K) * res) :=
    mul_lt_mul_of_pos_right (by linarith) hsr
  have h4 : (x + os) / res / (ts : K) * ((ts : K) * res)
      ≤ (⌈(x + os) / res / (ts : K)⌉ : K) * ((ts : K) * res) :=
    mul_le_mul_of_nonneg_right h2 (le_of_lt hsr)
  rw [hu] at h3 h4
  constructor
  · push_cast
    linarith
  · push_cast
    linarith

/-- Over exact arithmetic, on a projector of positive tile size and positive resolution
and below zoom 1024, the bounds of the tile returned by `MetersToTile` contain the
point, open at the low and closed at the high side. The rounding of the program's
`float64` operations, which moves a point next to a tile edge onto the edge, is not part
of this statement. -/
theorem MetersToTile_in_TileBounds (m : GlobalMercator K) (hts : 0 < m.tileSize)
    (hres : 0 < m.initialResolution) (mx my : K) (zoom : ℤ) (hz : zoom < 1024) :
    (m.TileBounds (m.MetersToTile mx my zoom).1 (m.MetersToTile mx my zoom).2 zoom).1 < mx ∧
    mx ≤ (m.TileBounds (m.MetersToTile mx my zoom).1 (m.MetersToTile mx my zoom).2 zoom).2.2.1 ∧
    (m.TileBounds (m.MetersToTile mx my zoom).1 (m.MetersToTile mx my zoom).2 zoom).2.1 < my ∧
    my ≤ (m.TileBounds (m.MetersToTile mx my zoom).1 (m.MetersToTile mx my zoom).2 zoom).2.2.2 := by
  have hr := Resolution_pos m hres zoom hz
  have hx := axis_in_tile m.tileSize hts (m.Resolution zoom) m.originShift mx hr
  have hy := axis_in_tile m.tileSize hts (m.Resolution zoom) m.originShift my hr
  simp only [MetersToTile, PixelsToTile_eq, MetersToPixels, TileBounds, PixelsToMeters]
  exact ⟨hx.1, hx.2, hy.1, hy.2⟩

/-- C18, as stated, fails at zoom 1024: `Resolution(1024)` is `0`, so the valid tile
`(0, 0)` has all four bounds equal to `-originShift`, and `minx < maxx` does not hold. -/
theorem C18_tile_bounds_range_counterexample :
    (NewGlobalMercator 256).TileBounds 0 0 ((1024 : ℕ) : ℤ)
      = (-(NewGlobalMercator 256).originShift, -(NewGlobalMercator 256).originShift,
         -(NewGlobalMercator 256).originShift, -(NewGlobalMercator 256).originShift) ∧
    ¬ ((NewGlobalMercator 256).TileBounds 0 0 ((1024 : ℕ) : ℤ)).1
        < ((NewGlobalMercator 256).TileBounds 0 0 ((1024 : ℕ) : ℤ)).2.2.1 := by
  have h : (NewGlobalMercator 256).TileBounds 0 0 ((1024 : ℕ) : ℤ)
      = (-(NewGlobalMercator 256).originShift, -(NewGlobalMercator 256).originShift,
         -(NewGlobalMercator 256).originShift, -(NewGlobalMercator 256).originShift) := by
    simp only [TileBounds, PixelsToMeters]
    rw [Resolution_of_ge _ _ (by norm_num)]
    simp
  rw [h]
  exact ⟨rfl, lt_irrefl _⟩

/-- C18, amended. For every tile size `> 0`, every zoom with `0 ≤ zoom ≤ 50` and every
valid tile `0 ≤ tx, ty < 2^zoom` whose pixel products `(tx+1)·tileSize` and
`(ty+1)·tileSize` are at most `2^53` (so that they neither wrap as `int` nor round as
`float64`), the four values of `TileBounds(tx, ty, zoom)` lie in
`[-originShift, originShift]`, `minx < maxx`, `miny < maxy`, and each side has length
`2·originShift / 2^zoom` (over exact arithmetic). -/
theorem C18_tile_bounds_range_amended (tileSize : ℤ) (htile : 0 < tileSize) (zoom : ℕ)
    (tx ty : ℤ) (hz : zoom ≤ 50)
    (htx0 : 0 ≤ tx) (htx : tx < 2 ^ zoom) (hty0 : 0 ≤ ty) (hty : ty < 2 ^ zoom)
    (hpx : (tx + 1) * tileSize ≤ 2 ^ 53) (hpy : (ty + 1) * tileSize ≤ 2 ^ 53) :
    -(NewGlobalMercator tileSize).originShift
        ≤ ((NewGlobalMercator tileSize).TileBounds tx ty zoom).1 ∧
    ((NewGlobalMercator tileSize).TileBounds tx ty zoom).1
        < ((NewGlobalMercator tileSize).TileBounds tx ty zoom).2.2.1 ∧
    ((NewGlobalMercator tileSize).TileBounds tx ty zoom).2.2.1
        ≤ (NewGlobalMercator tileSize).originShift ∧
    -(NewGlobalMercator tileSize).originShift
        ≤ ((NewGlobalMercator tileSize).TileBounds tx ty zoom).2.1 ∧
    ((NewGlobalMercator tileSize).TileBounds tx ty zoom).2.1
        < ((NewGlobalMercator tileSize).TileBounds tx ty zoom).2.2.2 ∧
    ((NewGlobalMercator tileSize).TileBounds tx ty zoom).2.2.2
        ≤ (NewGlobalMercator tileSize).originShift ∧
    ((NewGlobalMercator tileSize).TileBounds tx ty zoom).2.2.1
        - ((NewGlobalMercator tileSize).TileBounds tx ty zoom).1
        = 2 * (NewGlobalMercator tileSize).originShift / 2 ^ zoom ∧
    ((NewGlobalMercator tileSize).TileBounds tx ty zoom).2.2.2
        - ((NewGlobalMercator tileSize).TileBounds tx ty zoom).2.1
        = 2 * (NewGlobalMercator tileSize).originShift / 2 ^ zoom := by
  have hpi := Real.pi_pos
  have hos : (0 : ℝ) < Real.pi * 6378137 := by positivity
  have hpow : (0 : ℝ) < (2 : ℝ) ^ zoom := by positivity
  have hside : (0 : ℝ) < 2 * (Real.pi * 6378137) / (2 : ℝ) ^ zoom := by positivity
  have hfull : (2 : ℝ) ^ zoom * (2 * (Real.pi * 6378137) / (2 : ℝ) ^ zoom)
      = 2 * (Real.pi * 6378137) := by
    field_simp
  have hx0 : (0 : ℝ) ≤ (tx : ℝ) := by exact_mod_cast htx0
  have hy0 : (0 : ℝ) ≤ (ty : ℝ) := by exact_mod_cast hty0
  have hx1 : (tx : ℝ) + 1 ≤ (2 : ℝ) ^ zoom := by
    have : tx + 1 ≤ 2 ^ zoom := by omega
    exact_mod_cast this
  have hy1 : (ty : ℝ) + 1 ≤ (2 : ℝ) ^ zoom := by
    have : ty + 1 ≤ 2 ^ zoom := by omega
    exact_mod_cast this
  have hxs := mul_le_mul_of_nonneg_right hx1 (le_of_lt hside)
  have hys := mul_le_mul_of_nonneg_right hy1 (le_of_lt hside)
  have hxn := mul_nonneg hx0 (le_of_lt hside)
  have hyn := mul_nonneg hy0 (le_of_lt hside)
  rw [hfull] at hxs hys
  rw [TileBounds_NewGlobalMercator tileSize htile tx ty zoom (by omega), originShift_eq,
    zpow_natCast]
  refine ⟨?_, ?_, ?_, ?_, ?_, ?_, ?_, ?_⟩ <;> dsimp only <;> linarith

/-- Witness for the amended C18 at tile size 256, zoom 3 and tile `(3, 5)`. -/
theorem C18_tile_bounds_range_amended_witness :
    -(NewGlobalMercator 256).originShift
        ≤ ((NewGlobalMercator 256).TileBounds 3 5 ((3 : ℕ) : ℤ)).1 ∧
    ((NewGlobalMercator 256).TileBounds 3 5 ((3 : ℕ) : ℤ)).1
        < ((NewGlobalMercator 256).TileBounds 3 5 ((3 : ℕ) : ℤ)).2.2.1 ∧
    ((NewGlobalMercator 256).TileBounds 3 5 ((3 : ℕ) : ℤ)).2.2.1
        ≤ (NewGlobalMercator 256).originShift ∧
    -(NewGlobalMercator 256).originShift
        ≤ ((NewGlobalMercator 256).TileBounds 3 5 ((3 : ℕ) : ℤ)).2.1 ∧
    ((NewGlobalMercator 256).TileBounds 3 5 ((3 : ℕ) : ℤ)).2.1
        < ((NewGlobalMercator 256).TileBounds 3 5 ((3 : ℕ) : ℤ)).2.2.2 ∧
    ((NewGlobalMercator 256).TileBounds 3 5 ((3 : ℕ) : ℤ)).2.2.2
        ≤ (NewGlobalMercator 256).originShift ∧
    ((NewGlobalMercator 256).TileBounds 3 5 ((3 : ℕ) : ℤ)).2.2.1
        - ((NewGlobalMercator 256).TileBounds 3 5 ((3 : ℕ) : ℤ)).1
        = 2 * (NewGlobalMercator 256).originShift / 2 ^ 3 ∧
    ((NewGlobalMercator 256).TileBounds 3 5 ((3 : ℕ) : ℤ)).2.2.2
        - ((NewGlobalMercator 256).TileBounds 3 5 ((3 : ℕ) : ℤ)).2.1
        = 2 * (NewGlobalMercator 256).originShift / 2 ^ 3 :=
  C18_tile_bounds_range_amended 256 (by norm_num) 3 3 5 (by norm_num) (by norm_num)
    (by norm_num) (by norm_num) (by norm_num) (by norm_num) (by norm_num)

/-! ## Quadkeys: injectivity and hierarchy -/

/-- Two naturals below `2 ^ n` with the same binary digits at the positions below `n`
are equal. -/
theorem nat_eq_of_bits (a b n : ℕ) (ha : a < 2 ^ n) (hb : b < 2 ^ n)
    (h : ∀ i : ℕ, i < n → a / 2 ^ i % 2 = b / 2 ^ i % 2) : a = b := by
  apply Nat.eq_of_testBit_eq
  intro i
  by_cases hi : i < n
  · rw [Nat.testBit_to_div_mod, Nat.testBit_to_div_mod, h i hi]
  · have hle : 2 ^ n ≤ 2 ^ i := Nat.pow_le_pow_right (by norm_num) (by omega)
    rw [Nat.testBit_lt_two_pow (lt_of_lt_of_le ha hle),
      Nat.testBit_lt_two_pow (lt_of_lt_of_le hb hle)]

theorem digitChar_toNat_inj (d e : ℤ) (hd0 : 0 ≤ d) (hd3 : d ≤ 3) (he0 : 0 ≤ e) (he3 : e ≤ 3)
    (h : Nat.digitChar d.toNat = Nat.digitChar e.toNat) : d = e := by
  have hd : d = 0 ∨ d = 1 ∨ d = 2 ∨ d = 3 := by omega
  have he : e = 0 ∨ e = 1 ∨ e = 2 ∨ e = 3 := by omega
  rcases hd with rfl | rfl | rfl | rfl <;> rcases he with rfl | rfl | rfl | rfl <;>
    first
    | rfl
    | exact absurd h (by decide)

theorem quadDigit_range (tx ty : ℤ) (i : ℕ) :
    0 ≤ quadDigit tx ty i ∧ quadDigit tx ty i ≤ 3 := by
  rcases quadDigit_cases tx ty i with h | h | h | h <;> rw [h] <;> constructor <;> norm_num

/-- Equal quadkeys of naturals `a, b` and `c, d` (column and flipped row) force equal
binary digits below the zoom. -/
theorem quadDigit_bits_eq (a b c d i : ℕ)
    (h : quadDigit (a : ℤ) (b : ℤ) (i + 1) = quadDigit (c : ℤ) (d : ℤ) (i + 1)) :
    a / 2 ^ i % 2 = c / 2 ^ i % 2 ∧ b / 2 ^ i % 2 = d / 2 ^ i % 2 := by
  rw [quadDigit_natCast, quadDigit_natCast, bit_natCast, bit_natCast, bit_natCast,
    bit_natCast] at h
  have h1 := Nat.mod_lt (a / 2 ^ i) (show 0 < 2 by norm_num)
  have h2 := Nat.mod_lt (b / 2 ^ i) (show 0 < 2 by norm_num)
  have h3 := Nat.mod_lt (c / 2 ^ i) (show 0 < 2 by norm_num)
  have h4 := Nat.mod_lt (d / 2 ^ i) (show 0 < 2 by norm_num)
  omega

/-- Naturals with the same binary digits at the positions below `n` agree modulo
`2 ^ n`. -/
theorem nat_mod_eq_of_bits (a b n : ℕ)
    (h : ∀ i : ℕ, i < n → a / 2 ^ i % 2 = b / 2 ^ i % 2) : a % 2 ^ n = b % 2 ^ n := by
  apply Nat.eq_of_testBit_eq
  intro i
  rw [Nat.testBit_mod_two_pow, Nat.testBit_mod_two_pow]
  by_cases hi : i < n
  · rw [Nat.testBit_to_div_mod, Nat.testBit_to_div_mod, h i hi]
  · simp [hi]

/-- The row flip constant is at least `2^zoom - 1` at every zoom `≥ 0`. -/
theorem flip_constant_ge (zoom : ℕ) :
    (2 : ℤ) ^ zoom - 1 ≤ truncToInt (round64 ((2 : K) ^ ((zoom : ℕ) : ℤ) - 1)) := by
  by_cases hz : zoom ≤ 53
  · rw [truncToInt_two_pow_sub_one zoom hz]
  · rw [truncToInt_two_pow_rounded zoom (by omega)]
    omega

/-- C19. `QuadTree` is injective on the valid tiles of a zoom level: for every zoom
`≥ 0` and tiles with `0 ≤ tx, ty, tx2, ty2 < 2^zoom`,
`QuadTree(tx, ty, zoom) = QuadTree(tx2, ty2, zoom)` implies `tx = tx2` and `ty = ty2`. -/
theorem C19_quadtree_injective (m : GlobalMercator K) (zoom : ℕ) (tx ty tx2 ty2 : ℤ)
    (htx0 : 0 ≤ tx) (htx : tx < 2 ^ zoom) (hty0 : 0 ≤ ty) (hty : ty < 2 ^ zoom)
    (htx20 : 0 ≤ tx2) (htx2 : tx2 < 2 ^ zoom) (hty20 : 0 ≤ ty2) (hty2 : ty2 < 2 ^ zoom)
    (h : m.QuadTree tx ty (zoom : ℤ) = m.QuadTree tx2 ty2 (zoom : ℤ)) :
    tx = tx2 ∧ ty = ty2 := by
  have hdata := congrArg String.data h
  rw [QuadTree_data, QuadTree_data, List.map_inj_left] at hdata
  have hcge := flip_constant_ge (K := K) zoom
  generalize truncToInt (round64 ((2 : K) ^ ((zoom : ℕ) : ℤ) - 1)) = c at hdata hcge
  have hg0 : (0 : ℤ) ≤ c - ty := by omega
  have hg20 : (0 : ℤ) ≤ c - ty2 := by omega
  obtain ⟨a, rfl⟩ := Int.eq_ofNat_of_zero_le htx0
  obtain ⟨a2, rfl⟩ := Int.eq_ofNat_of_zero_le htx20
  obtain ⟨b, hb⟩ := Int.eq_ofNat_of_zero_le hg0
  obtain ⟨d, hd⟩ := Int.eq_ofNat_of_zero_le hg20
  rw [hb, hd] at hdata
  have hbits : ∀ i : ℕ, i < zoom →
      a / 2 ^ i % 2 = a2 / 2 ^ i % 2 ∧ b / 2 ^ i % 2 = d / 2 ^ i % 2 := by
    intro i hi
    have hk := hdata (zoom - 1 - i) (List.mem_range.mpr (by omega))
    have hidx : zoom - (zoom - 1 - i) = i + 1 := by omega
    rw [hidx] at hk
    have hr1 := quadDigit_range (a : ℤ) (b : ℤ) (i + 1)
    have hr2 := quadDigit_range (a2 : ℤ) (d : ℤ) (i + 1)
    exact quadDigit_bits_eq a b a2 d i
      (digitChar_toNat_inj _ _ hr1.1 hr1.2 hr2.1 hr2.2 hk)
  have ha : a < 2 ^ zoom := by exact_mod_cast htx
  have ha2 : a2 < 2 ^ zoom := by exact_mod_cast htx2
  have hac : a = a2 := nat_eq_of_bits a a2 zoom ha ha2 (fun i hi => (hbits i hi).1)
  have hmod : b % 2 ^ zoom = d % 2 ^ zoom :=
    nat_mod_eq_of_bits b d zoom (fun i hi => (hbits i hi).2)
  have hmodZ : (c - ty) % (2 : ℤ) ^ zoom = (c - ty2) % (2 : ℤ) ^ zoom := by
    rw [hb, hd]
    exact_mod_cast hmod
  have hdvd : (2 : ℤ) ^ zoom ∣ ty2 - ty := by
    have h0 := (Int.emod_eq_emod_iff_emod_sub_eq_zero).mp hmodZ
    have h1 : c - ty - (c - ty2) = ty2 - ty := by ring
    rw [h1] at h0
    exact Int.dvd_of_emod_eq_zero h0
  have habs : |ty2 - ty| < (2 : ℤ) ^ zoom := by
    rw [abs_lt]
    constructor <;> omega
  have hzero := Int.eq_zero_of_abs_lt_dvd hdvd habs
  constructor
  · rw [hac]
  · omega

/-- Witness for C19 at zoom 3 with the tile `(3, 5)` on both sides. -/
theorem C19_quadtree_injective_witness : (3 : ℤ) = 3 ∧ (5 : ℤ) = 5 :=
  C19_quadtree_injective sampleMercator 3 3 5 3 5 (by decide) (by decide) (by decide)
    (by decide) (by decide) (by decide) (by decide) (by decide) rfl

/-- Doubling a natural and adding a binary digit shifts its binary digits up by one. -/
theorem bit_double (x α j : ℕ) (hα : α < 2) :
    bit (((2 * x + α : ℕ)) : ℤ) (j + 1) = bit (x : ℤ) j := by
  rw [bit_natCast, bit_natCast]
  have h : (2 * x + α) / 2 ^ (j + 1) = x / 2 ^ j := by
    rw [pow_succ, mul_comm (2 ^ j) 2, ← Nat.div_div_eq_div_mul]
    congr 1
    omega
  rw [h]

theorem bit_double_zero (x α : ℕ) (hα : α < 2) :
    bit (((2 * x + α : ℕ)) : ℤ) 0 = (α : ℤ) := by
  rw [bit_natCast]
  have h : (2 * x + α) / 2 ^ 0 % 2 = α := by
    simp
    omega
  rw [h]

/-- The quadkey digits of a child tile: those of its parent, one level up. -/
theorem quadDigit_child (x g α β j : ℕ) (hα : α < 2) (hβ : β < 2) :
    quadDigit (((2 * x + α : ℕ)) : ℤ) (((2 * g + β : ℕ)) : ℤ) (j + 1 + 1)
      = quadDigit (x : ℤ) (g : ℤ) (j + 1) := by
  rw [quadDigit_natCast, quadDigit_natCast, bit_double x α j hα, bit_double g β j hβ]

theorem quadDigit_child_last (x g α β : ℕ) (hα : α < 2) (hβ : β < 2) :
    quadDigit (((2 * x + α : ℕ)) : ℤ) (((2 * g + β : ℕ)) : ℤ) (0 + 1)
      = (α : ℤ) + 2 * (β : ℤ) := by
  rw [quadDigit_natCast, bit_double_zero x α hα, bit_double_zero g β hβ]

theorem toString_digit_data (d : ℤ) (h0 : 0 ≤ d) (h3 : d ≤ 3) :
    (toString d).data = [Nat.digitChar d.toNat] := by
  have hd : d = 0 ∨ d = 1 ∨ d = 2 ∨ d = 3 := by omega
  rcases hd with rfl | rfl | rfl | rfl <;> decide

/-- C20, as stated, fails at zoom 53: the key of the child `(0, 0)` at zoom 54 begins
with `0`, because the row flip of zoom 54 is about `2^54`, while the key of its parent
`(0, 0)` at zoom 53 begins with `2`; so the child key is not the parent key followed by
a digit. -/
theorem C20_quadtree_hierarchy_counterexample :
    ((NewGlobalMercator 256).QuadTree (2 * 0 + 0) (2 * 0 + 0) (((53 : ℕ) : ℤ) + 1)).data[0]?
      = some '0' ∧
    ((NewGlobalMercator 256).QuadTree 0 0 ((53 : ℕ) : ℤ)
      ++ toString ((0 : ℤ) + 2 * (1 - 0))).data[0]? = some '2' ∧
    (NewGlobalMercator 256).QuadTree (2 * 0 + 0) (2 * 0 + 0) (((53 : ℕ) : ℤ) + 1)
      ≠ (NewGlobalMercator 256).QuadTree 0 0 ((53 : ℕ) : ℤ)
          ++ toString ((0 : ℤ) + 2 * (1 - 0)) := by
  have hchild : ((NewGlobalMercator 256).QuadTree (2 * 0 + 0) (2 * 0 + 0)
      (((53 : ℕ) : ℤ) + 1)).data[0]? = some '0' := by
    have hz : ((53 : ℕ) : ℤ) + 1 = ((54 : ℕ) : ℤ) := rfl
    rw [hz, QuadTree_data, List.getElem?_map, List.getElem?_range (by norm_num),
      Option.map_some', truncToInt_two_pow_rounded 54 (by norm_num)]
    have h : quadDigit (2 * 0 + 0) (2 ^ 54 - (2 * 0 + 0)) (54 - 0) = 0 := by decide
    rw [h]
    rfl
  have hparent : ((NewGlobalMercator 256).QuadTree 0 0 ((53 : ℕ) : ℤ)
      ++ toString ((0 : ℤ) + 2 * (1 - 0))).data[0]? = some '2' := by
    rw [String.data_append, QuadTree_data, List.getElem?_append_left (by simp),
      List.getElem?_map, List.getElem?_range (by norm_num), Option.map_some',
      truncToInt_two_pow_sub_one 53 (by norm_num)]
    have h : quadDigit 0 (2 ^ 53 - 1 - 0) (53 - 0) = 2 := by decide
    rw [h]
    rfl
  refine ⟨hchild, hparent, ?_⟩
  intro heq
  rw [heq, hparent] at hchild
  exact absurd hchild (by decide)

/-- C20, amended. Quadkeys are hierarchical up to zoom 53: for every zoom with
`0 ≤ zoom` and `zoom + 1 ≤ 53`, every tile with `0 ≤ tx, ty < 2^zoom` and every `a, b`
in `{0, 1}`, `QuadTree(2·tx + a, 2·ty + b, zoom + 1)` is `QuadTree(tx, ty, zoom)`
followed by the single digit `a + 2·(1 - b)`; so the quadkey of a tile begins with the
quadkey of its parent. -/
theorem C20_quadtree_hierarchy_amended (m : GlobalMercator K) (zoom : ℕ) (tx ty a b : ℤ)
    (hz : zoom + 1 ≤ 53)
    (htx0 : 0 ≤ tx) (htx : tx < 2 ^ zoom) (hty0 : 0 ≤ ty) (hty : ty < 2 ^ zoom)
    (ha : a = 0 ∨ a = 1) (hb : b = 0 ∨ b = 1) :
    m.QuadTree (2 * tx + a) (2 * ty + b) ((zoom : ℤ) + 1)
      = m.QuadTree tx ty (zoom : ℤ) ++ toString (a + 2 * (1 - b)) ∧
    ∃ s : String, m.QuadTree (2 * tx + a) (2 * ty + b) ((zoom : ℤ) + 1)
      = m.QuadTree tx ty (zoom : ℤ) ++ s := by
  suffices hmain : m.QuadTree (2 * tx + a) (2 * ty + b) ((zoom : ℤ) + 1)
      = m.QuadTree tx ty (zoom : ℤ) ++ toString (a + 2 * (1 - b)) from ⟨hmain, _, hmain⟩
  have hg0 : (0 : ℤ) ≤ 2 ^ zoom - 1 - ty := by omega
  obtain ⟨x, rfl⟩ := Int.eq_ofNat_of_zero_le htx0
  obtain ⟨g, hg⟩ := Int.eq_ofNat_of_zero_le hg0
  obtain ⟨α, hα, rfl⟩ : ∃ α : ℕ, α < 2 ∧ a = (α : ℤ) := by
    rcases ha with rfl | rfl
    · exact ⟨0, by norm_num, rfl⟩
    · exact ⟨1, by norm_num, rfl⟩
  obtain ⟨β, hβ, hβb⟩ : ∃ β : ℕ, β < 2 ∧ 1 - b = (β : ℤ) := by
    rcases hb with rfl | rfl
    · exact ⟨1, by norm_num, rfl⟩
    · exact ⟨0, by norm_num, rfl⟩
  have hcol : 2 * (x : ℤ) + (α : ℤ) = (((2 * x + α : ℕ)) : ℤ) := by push_cast; ring
  have hrow : (2 : ℤ) ^ (zoom + 1) - 1 - (2 * ty + b) = (((2 * g + β : ℕ)) : ℤ) := by
    push_cast
    rw [← hg, ← hβb, pow_succ]
    ring
  have hzoom : (zoom : ℤ) + 1 = ((zoom + 1 : ℕ) : ℤ) := by push_cast; ring
  apply String.ext
  rw [hzoom, String.data_append, QuadTree_data, QuadTree_data,
    truncToInt_two_pow_sub_one (zoom + 1) hz, truncToInt_two_pow_sub_one zoom (by omega),
    hrow, hcol, hg, hβb,
    List.range_succ, List.map_append, List.map_singleton, Nat.add_sub_cancel_left,
    toString_digit_data _ (by omega) (by omega)]
  congr 1
  · apply List.map_congr_left
    intro k hk
    have hkn : k < zoom := List.mem_range.mp hk
    have h1 : zoom + 1 - k = (zoom - 1 - k) + 1 + 1 := by omega
    have h2 : zoom - k = (zoom - 1 - k) + 1 := by omega
    rw [h1, h2, quadDigit_child x g α β _ hα hβ]
  · rw [show (1 : ℕ) = 0 + 1 from rfl, quadDigit_child_last x g α β hα hβ]

/-- Witness for the amended C20: the child `(2·1 + 1, 2·2 + 0)` at zoom 3 of tile
`(1, 2)` at zoom 2. -/
theorem C20_quadtree_hierarchy_amended_witness :
    sampleMercator.QuadTree (2 * 1 + 1) (2 * 2 + 0) (((2 : ℕ) : ℤ) + 1)
      = sampleMercator.QuadTree 1 2 ((2 : ℕ) : ℤ) ++ toString ((1 : ℤ) + 2 * (1 - 0)) ∧
    ∃ s : String, sampleMercator.QuadTree (2 * 1 + 1) (2 * 2 + 0) (((2 : ℕ) : ℤ) + 1)
      = sampleMercator.QuadTree 1 2 ((2 : ℕ) : ℤ) ++ s :=
  C20_quadtree_hierarchy_amended sampleMercator 2 1 2 1 0 (by decide) (by decide) (by decide)
    (by decide) (by decide) (by decide) (by decide)

end globalmaptiles
